import Mathlib

/-!
Verification of the memberlist utility layer: compound message framing,
wire envelope, payload compression envelope, suspicion confirmation
counting, dead-node compaction and random node sampling.

Bytes are modelled as `Nat` values (`< 256` on real inputs); machine
integer truncation (`uint8`, `uint16`) is modelled with explicit `% 256`
and `% 65536`.  Go slices of bytes become `List Nat`.
-/

namespace Memberlist

/-- Modelled from the spec: the wire tag byte for compound messages
(`compoundMsg`).  The message type constants are declared outside the
given sources; only the fact that a single tag byte is written matters. -/
def compoundMsgTag : Nat := 7

/-- Modelled from the spec: the wire tag byte for compressed messages
(`compressMsg`), declared outside the given sources. -/
def compressMsgTag : Nat := 9

/-- Modelled from the spec: the single supported compression algorithm
identifier (`lzwAlgo`), declared outside the given sources. -/
def lzwAlgo : Nat := 0

/-- The two big-endian bytes written by `binary.Write(buf, binary.BigEndian, v)`
for a `uint16` value `v`. -/
def u16beBytes (v : Nat) : List Nat := [v / 256 % 256, v % 256]

/-- `makeCompoundMessage` from `util.go`: writes the compound tag byte, the
count byte `uint8(len(msgs))`, one `uint16` big-endian length per message,
then the concatenated message bodies. -/
def makeCompoundMessage (msgs : List (List Nat)) : List Nat :=
  let buf : List Nat := [compoundMsgTag]
  let buf := buf ++ [msgs.length % 256]
  let buf := msgs.foldl (fun b m => b ++ u16beBytes (m.length % 65536)) buf
  msgs.foldl (fun b m => b ++ m) buf

/-- Result of `decodeCompoundMessage`: an error return, a Go runtime panic
(out-of-range slice expression), or a normal return of the truncation
count together with the extracted parts. -/
inductive DecodeResult where
  | err (msg : String)
  | panic
  | ok (trunc : Nat) (parts : List (List Nat))
deriving DecidableEq, Repr

/-- The message splitting loop at the end of `decodeCompoundMessage`: for each
expected length, if fewer bytes remain the loop stops and reports
`trunc = numParts - idx`; otherwise it slices off the part and continues. -/
def splitLoop (numParts : Nat) : List Nat → List Nat → Nat → Nat × List (List Nat)
  | [], _, _ => (0, [])
  | msgLen :: rest, body, idx =>
    if body.length < msgLen then
      (numParts - idx, [])
    else
      let r := splitLoop numParts rest (body.drop msgLen) (idx + 1)
      (r.1, body.take msgLen :: r.2)

/-- `decodeCompoundMessage` from `util.go`.  Faithful to the Go code: the
bounds check and the slice advance both compute `numParts*2` in `uint8`
arithmetic (hence `% 256`), while the length-decoding loop indexes with the
`int` product `i*2`; an index past the end of the buffer is a Go panic. -/
def decodeCompoundMessage (buf : List Nat) : DecodeResult :=
  match buf with
  | [] => .err "missing compound length byte"
  | b :: rest =>
    let numParts := b % 256
    if rest.length < numParts * 2 % 256 then .err "truncated len slice"
    else if rest.length < numParts * 2 then .panic
    else
      let lengths := (List.range numParts).map
        (fun i => 256 * rest.getD (2 * i) 0 + rest.getD (2 * i + 1) 0)
      let body := rest.drop (numParts * 2 % 256)
      let r := splitLoop numParts lengths body 0
      .ok r.1 r.2

/-- The compound frame for `msgs` with the bytes of the last `j` message
bodies removed from its tail (the frame ends with the concatenated bodies,
so this drops exactly the trailing bodies' bytes). -/
def dropTailBodies (msgs : List (List Nat)) (j : Nat) : List Nat :=
  let B := makeCompoundMessage msgs
  B.take (B.length - ((msgs.drop (msgs.length - j)).map List.length).sum)

/-- Two's-complement wrap of an integer into the `int32` range
`[-2147483648, 2147483648)`, as performed by Go's `int32(k)` conversion
and by `int32` arithmetic. -/
def int32wrap (x : Int) : Int :=
  (x + 2147483648) % 4294967296 - 2147483648

/-- The suspicion timer state from the suspicion source file, restricted to
the fields `Confirm` reads and writes: the confirmation count `n`, the
target `k` and the set of peers that already confirmed.  Both counters are
`int32` in the source, so every value stored in them is wrapped into the
`int32` range.  The timer, the timeout bounds and the start timestamp
drive real-time behaviour only and never feed back into these fields. -/
structure suspicion where
  n : Int
  k : Int
  confirmations : List String
deriving DecidableEq, Repr

/-- `newSuspicion`, restricted to the modelled fields: the count starts at
zero, the target is stored through the truncating `int32(k)` conversion,
and the originating peer is pre-seeded into the confirmation set. -/
def newSuspicion (fromPeer : String) (k : Int) : suspicion :=
  { n := 0, k := int32wrap k, confirmations := [fromPeer] }

/-- `(*suspicion).Confirm`: rejects once `n ≥ k`, rejects duplicate peers,
otherwise records the peer, increments `n` with `int32` arithmetic
(`atomic.AddInt32`) and accepts.  The timer re-arming it performs
afterwards does not touch the modelled state. -/
def suspicion.Confirm (s : suspicion) (fromPeer : String) : Bool × suspicion :=
  if s.n ≥ s.k then (false, s)
  else if fromPeer ∈ s.confirmations then (false, s)
  else (true, { s with
    n := int32wrap (s.n + 1)
    confirmations := fromPeer :: s.confirmations })

/-- Runs a sequence of sequential `Confirm` calls, discarding the returned
booleans. -/
def confirmSteps (s : suspicion) (peers : List String) : suspicion :=
  peers.foldl (fun s p => (s.Confirm p).2) s

/-- Modelled from the spec: the node state enumeration
(`Alive, Suspect, Dead, Left`), declared outside the given sources. -/
inductive NodeStateType where
  | stateAlive
  | stateSuspect
  | stateDead
  | stateLeft
deriving DecidableEq, Repr

/-- The two fields of a node's state record that `moveDeadNodes` reads:
the state and the timestamp of its last change (an instant, in the same
clock as `now` below). -/
structure nodeState where
  State : NodeStateType
  StateChange : Int
deriving DecidableEq, Repr

instance : Inhabited nodeState := ⟨⟨.stateAlive, 0⟩⟩

/-- The eviction condition of `moveDeadNodes`: state is dead and
`time.Since(StateChange) > gossipToTheDeadTime`, with `time.Since`
expanded to `now - StateChange` for an explicit current instant. -/
def deadExpired (gossipToTheDeadTime now : Int) (nd : nodeState) : Bool :=
  nd.State == .stateDead && now - nd.StateChange > gossipToTheDeadTime

/-- The loop of `moveDeadNodes`, with the Go loop's progress measure
`n - numDead - i` made explicit as structural fuel: each iteration either
advances `i` or increases `numDead`, so the measure drops by one each
time, and the loop exits when `i < n - numDead` fails.  Run with fuel
equal to the initial measure this computes exactly the Go loop. -/
def moveDeadLoop (gossipToTheDeadTime now : Int) :
    Nat → List nodeState → Nat → Nat → List nodeState × Nat
  | 0, nodes, _, numDead => (nodes, nodes.length - numDead)
  | fuel + 1, nodes, i, numDead =>
    if i < nodes.length - numDead then
      let nd := nodes.getD i default
      if deadExpired gossipToTheDeadTime now nd then
        let j := nodes.length - numDead - 1
        let nodes' := (nodes.set i (nodes.getD j default)).set j nd
        moveDeadLoop gossipToTheDeadTime now fuel nodes' i (numDead + 1)
      else
        moveDeadLoop gossipToTheDeadTime now fuel nodes (i + 1) numDead
    else (nodes, nodes.length - numDead)

/-- `moveDeadNodes` from `util.go`, with the in-place slice mutation made
explicit: returns the final list together with the returned index
`n - numDead`. -/
def moveDeadNodes (gossipToTheDeadTime now : Int) (nodes : List nodeState) :
    List nodeState × Nat :=
  moveDeadLoop gossipToTheDeadTime now nodes.length nodes 0 0

/-- `randomOffset` from `util.go`: zero for an empty range, otherwise a
random `uint32` value reduced modulo `n`.  The draw `r` stands for the
`rand.Uint32()` result. -/
def randomOffset (n : Nat) (r : Nat) : Nat :=
  if n = 0 then 0 else r % n

/-- The probe loop of `kRandomNodes`, with the iteration counter bounded by
`3 * len(nodes)` made explicit as structural fuel; `draws i` stands for
the `rand.Uint32()` result of iteration `i`.  Nodes are identified by
their id (Go compares the `*nodeState` pointers). -/
def kRandomLoop (k : Nat) (nodes : List Nat) (filterFn : Option (Nat → Bool))
    (draws : Nat → Nat) : Nat → Nat → List Nat → List Nat
  | 0, _, kNodes => kNodes
  | fuel + 1, i, kNodes =>
    if kNodes.length < k then
      let idx := randomOffset nodes.length (draws i)
      let node := nodes.getD idx 0
      if (match filterFn with | some f => f node | none => false) then
        kRandomLoop k nodes filterFn draws fuel (i + 1) kNodes
      else if node ∈ kNodes then
        kRandomLoop k nodes filterFn draws fuel (i + 1) kNodes
      else
        kRandomLoop k nodes filterFn draws fuel (i + 1) (kNodes ++ [node])
    else kNodes

/-- `kRandomNodes` from `util.go`: up to `3 * len(nodes)` draws, stopping
early once `k` distinct unfiltered nodes have been collected. -/
def kRandomNodes (k : Nat) (nodes : List Nat) (filterFn : Option (Nat → Bool))
    (draws : Nat → Nat) : List Nat :=
  kRandomLoop k nodes filterFn draws (3 * nodes.length) 0 []

/-- Modelled from the spec: the external self-describing serialization
library (msgpack codec), which is not part of the given sources.  Only its
envelope contract matters: a serializer and a deserializer for a value
type, the round-trip law being assumed where a claim needs it. -/
structure Codec (V : Type) where
  ser : V → List Nat
  deser : List Nat → Option V

/-- `encode` from `util.go`: writes the single message type byte, then the
self-describing serialization of the value. -/
def encode {V : Type} (c : Codec V) (msgType : Nat) (v : V) : List Nat :=
  msgType % 256 :: c.ser v

/-- `decode` from `util.go`: deserializes the whole buffer (the caller has
already consumed any leading type byte). -/
def decode {V : Type} (c : Codec V) (buf : List Nat) : Option V :=
  c.deser buf

/-- The `compress` message structure: an algorithm identifier and the
compressed bytes. -/
structure compress where
  Algo : Nat
  Buf : List Nat
deriving DecidableEq, Repr

/-- Modelled from the spec: the external LZW compressor/decompressor pair
(Go's `compress/lzw` with fixed literal width), not part of the given
sources; only the round-trip contract between the two functions is used. -/
structure LZWImpl where
  comp : List Nat → List Nat
  decomp : List Nat → Option (List Nat)

/-- `compressPayload` from `util.go`: compress the input, wrap it in a
`compress` value with the known algorithm identifier, and encode it with
the compressed-message type tag. -/
def compressPayload (z : LZWImpl) (c : Codec compress) (inp : List Nat) : List Nat :=
  encode c compressMsgTag { Algo := lzwAlgo, Buf := z.comp inp }

/-- `decompressBuffer` from `util.go`: reject an unknown algorithm
identifier, otherwise decompress the buffer (`none` models the
decompressor's error return). -/
def decompressBuffer (z : LZWImpl) (co : compress) : Option (List Nat) :=
  if co.Algo ≠ lzwAlgo then none
  else z.decomp co.Buf

/-- `decompressPayload` from `util.go`: decode the `compress` envelope and
hand it to `decompressBuffer`. -/
def decompressPayload (z : LZWImpl) (c : Codec compress) (msg : List Nat) :
    Option (List Nat) :=
  match decode c msg with
  | none => none
  | some co => decompressBuffer z co

/-! ### Helper lemmas -/

lemma foldl_append_map {α : Type} (f : α → List Nat) :
    ∀ (msgs : List α) (init : List Nat),
      msgs.foldl (fun b m => b ++ f m) init = init ++ (msgs.map f).flatten := by
  intro msgs
  induction msgs with
  | nil => intro init; simp
  | cons m ms ih => intro init; simp [ih, List.append_assoc]

lemma foldl_append_self :
    ∀ (msgs : List (List Nat)) (init : List Nat),
      msgs.foldl (fun b m => b ++ m) init = init ++ msgs.flatten := by
  intro msgs
  induction msgs with
  | nil => intro init; simp
  | cons m ms ih => intro init; simp [ih, List.append_assoc]

/-- The compound frame laid out explicitly: tag, count byte, length table,
then the concatenated bodies. -/
lemma makeCompound_unfold (msgs : List (List Nat)) :
    makeCompoundMessage msgs =
      compoundMsgTag :: msgs.length % 256 ::
        ((msgs.map fun m => u16beBytes (m.length % 65536)).flatten ++ msgs.flatten) := by
  simp [makeCompoundMessage, foldl_append_map, foldl_append_self, List.append_assoc]

lemma int32wrap_eq_self (x : Int) (h1 : -2147483648 ≤ x) (h2 : x < 2147483648) :
    int32wrap x = x := by
  rw [int32wrap, Int.emod_eq_of_lt (by omega) (by omega)]
  omega

lemma int32wrap_bounds (x : Int) :
    -2147483648 ≤ int32wrap x ∧ int32wrap x < 2147483648 := by
  rw [int32wrap]
  have h1 : 0 ≤ (x + 2147483648) % 4294967296 := Int.emod_nonneg _ (by omega)
  have h2 : (x + 2147483648) % 4294967296 < 4294967296 :=
    Int.emod_lt_of_pos _ (by omega)
  omega

/-- Invariant carried by every suspicion state whose stored target is the
`int32` value `k`: the target stays `k`, the originating peer stays in the
confirmation set, and the count stays within `[0, max k 0]`. -/
def suspicionInv (fromPeer : String) (k : Int) (s : suspicion) : Prop :=
  s.k = k ∧ fromPeer ∈ s.confirmations ∧ 0 ≤ s.n ∧ s.n ≤ max k 0

lemma suspicionInv_confirm (fromPeer : String) (k : Int) (p : String) (s : suspicion)
    (hk32 : k < 2147483648)
    (h : suspicionInv fromPeer k s) : suspicionInv fromPeer k (s.Confirm p).2 := by
  obtain ⟨hk, hm, h0, hb⟩ := h
  rw [suspicion.Confirm]
  split_ifs with h1 h2
  · exact ⟨hk, hm, h0, hb⟩
  · exact ⟨hk, hm, h0, hb⟩
  · have hnk : s.n < s.k := lt_of_not_ge h1
    rw [hk] at hnk
    have hwrap : int32wrap (s.n + 1) = s.n + 1 :=
      int32wrap_eq_self _ (by omega) (by omega)
    refine ⟨hk, List.mem_cons_of_mem _ hm, ?_, ?_⟩
    · show 0 ≤ int32wrap (s.n + 1)
      rw [hwrap]; omega
    · show int32wrap (s.n + 1) ≤ max k 0
      rw [hwrap]
      exact le_trans (Int.add_one_le_iff.mpr hnk) (le_max_left k 0)

lemma suspicionInv_steps (fromPeer : String) (k : Int) (peers : List String) :
    suspicionInv fromPeer (int32wrap k) (confirmSteps (newSuspicion fromPeer k) peers) := by
  suffices H : ∀ (ps : List String) (s : suspicion),
      suspicionInv fromPeer (int32wrap k) s →
        suspicionInv fromPeer (int32wrap k) (confirmSteps s ps) by
    refine H peers _ ⟨rfl, by simp [newSuspicion], le_refl 0, le_max_right _ 0⟩
  intro ps
  induction ps with
  | nil => intro s h; exact h
  | cons q qs ih =>
    intro s h
    exact ih _ (suspicionInv_confirm fromPeer (int32wrap k) q s
      (int32wrap_bounds k).2 h)

lemma getD_mem {α : Type} (l : List α) (i : Nat) (d : α) (h : i < l.length) :
    l.getD i d ∈ l := by
  simp [List.getD, List.getElem?_eq_getElem h]

lemma nodup_concat {α : Type} (l : List α) (a : α) (h : l.Nodup) (ha : a ∉ l) :
    (l ++ [a]).Nodup := by
  simp [List.nodup_append, h, ha]

lemma kRandomLoop_inv (k : Nat) (nodes : List Nat) (filterFn : Option (Nat → Bool))
    (draws : Nat → Nat) :
    ∀ (fuel : Nat), fuel ≤ 3 * nodes.length → ∀ (i : Nat) (acc : List Nat),
      acc.Nodup → (∀ x ∈ acc, x ∈ nodes) → acc.length ≤ k →
      (kRandomLoop k nodes filterFn draws fuel i acc).Nodup ∧
        (∀ x ∈ kRandomLoop k nodes filterFn draws fuel i acc, x ∈ nodes) ∧
        (kRandomLoop k nodes filterFn draws fuel i acc).length ≤ k := by
  intro fuel
  induction fuel with
  | zero => intro _ i acc h1 h2 h3; exact ⟨h1, h2, h3⟩
  | succ f ih =>
    intro hf i acc h1 h2 h3
    have hnpos : 0 < nodes.length := by omega
    have hf' : f ≤ 3 * nodes.length := by omega
    rw [kRandomLoop]
    by_cases hlen : acc.length < k
    · rw [if_pos hlen]
      have hidx : randomOffset nodes.length (draws i) < nodes.length := by
        rw [randomOffset, if_neg (Nat.pos_iff_ne_zero.mp hnpos)]
        exact Nat.mod_lt _ hnpos
      have hnode : nodes.getD (randomOffset nodes.length (draws i)) 0 ∈ nodes :=
        getD_mem nodes _ 0 hidx
      dsimp only
      split_ifs with hfilt hmem
      · exact ih hf' (i + 1) acc h1 h2 h3
      · exact ih hf' (i + 1) acc h1 h2 h3
      · refine ih hf' (i + 1) _ ?_ ?_ ?_
        · exact nodup_concat acc _ h1 hmem
        · intro x hx
          rcases List.mem_append.mp hx with hx | hx
          · exact h2 x hx
          · exact (List.mem_singleton.mp hx) ▸ hnode
        · simp only [List.length_append, List.length_singleton]
          omega
    · rw [if_neg hlen]
      exact ⟨h1, h2, h3⟩

lemma getD_set_self {α : Type} (l : List α) (i : Nat) (a d : α) (h : i < l.length) :
    (l.set i a).getD i d = a := by
  simp [List.getD, List.getElem?_set, h]

lemma getD_set_ne {α : Type} (l : List α) (i j : Nat) (a d : α) (h : i ≠ j) :
    (l.set i a).getD j d = l.getD j d := by
  simp [List.getD, List.getElem?_set, h]

lemma set_cons_perm {α : Type} (d : α) :
    ∀ (l : List α) (i : Nat), i < l.length → ∀ (a : α),
      List.Perm (l.getD i d :: l.set i a) (a :: l) := by
  intro l
  induction l with
  | nil => intro i hi; exact absurd hi (by simp)
  | cons x t ih =>
    intro i hi a
    cases i with
    | zero => exact List.Perm.swap a x t
    | succ i =>
      have hi' : i < t.length := by simpa using hi
      exact (List.Perm.swap x (t.getD i d) (t.set i a)).trans
        (((ih i hi' a).cons x).trans (List.Perm.swap a x t))

lemma swap_set_perm {α : Type} (d : α) (l : List α) (i j : Nat)
    (hi : i < l.length) (hj : j < l.length) :
    List.Perm ((l.set i (l.getD j d)).set j (l.getD i d)) l := by
  have hm : (l.set i (l.getD j d)).getD j d = l.getD j d := by
    by_cases hij : i = j
    · subst hij; exact getD_set_self l i _ d hi
    · exact getD_set_ne l i j _ d hij
  have h1 := set_cons_perm d (l.set i (l.getD j d)) j
    (by rw [List.length_set]; exact hj) (l.getD i d)
  have h2 := set_cons_perm d l i hi (l.getD j d)
  rw [hm] at h1
  exact (h1.trans h2).cons_inv

lemma moveDeadLoop_inv (g now : Int) :
    ∀ (fuel : Nat) (nodes : List nodeState) (i numDead : Nat),
      nodes.length - numDead - i ≤ fuel →
      numDead ≤ nodes.length →
      (∀ idx, idx < i → deadExpired g now (nodes.getD idx default) = false) →
      (∀ idx, nodes.length - numDead ≤ idx → idx < nodes.length →
        deadExpired g now (nodes.getD idx default) = true) →
      (moveDeadLoop g now fuel nodes i numDead).1.length = nodes.length ∧
        (moveDeadLoop g now fuel nodes i numDead).2 ≤ nodes.length ∧
        List.Perm (moveDeadLoop g now fuel nodes i numDead).1 nodes ∧
        (∀ idx, idx < (moveDeadLoop g now fuel nodes i numDead).2 →
          deadExpired g now ((moveDeadLoop g now fuel nodes i numDead).1.getD idx default)
            = false) ∧
        (∀ idx, (moveDeadLoop g now fuel nodes i numDead).2 ≤ idx → idx < nodes.length →
          deadExpired g now ((moveDeadLoop g now fuel nodes i numDead).1.getD idx default)
            = true) := by
  intro fuel
  induction fuel with
  | zero =>
    intro nodes i numDead hfuel hnd h1 h2
    have hge : nodes.length - numDead ≤ i := by omega
    refine ⟨rfl, by show nodes.length - numDead ≤ nodes.length; omega, List.Perm.refl _, ?_, ?_⟩
    · intro idx hidx
      have hidx' : idx < nodes.length - numDead := hidx
      exact h1 idx (by omega)
    · intro idx hidx hlt
      exact h2 idx hidx hlt
  | succ f ih =>
    intro nodes i numDead hfuel hnd h1 h2
    rw [moveDeadLoop]
    by_cases hguard : i < nodes.length - numDead
    · rw [if_pos hguard]
      dsimp only
      by_cases hdead : deadExpired g now (nodes.getD i default) = true
      · rw [if_pos hdead]
        have hilen : i < nodes.length := by omega
        have hjlen : nodes.length - numDead - 1 < nodes.length := by omega
        have hij : i ≤ nodes.length - numDead - 1 := by omega
        have hlen' :
            ((nodes.set i (nodes.getD (nodes.length - numDead - 1) default)).set
              (nodes.length - numDead - 1) (nodes.getD i default)).length = nodes.length := by
          simp
        have hres := ih ((nodes.set i (nodes.getD (nodes.length - numDead - 1) default)).set
            (nodes.length - numDead - 1) (nodes.getD i default)) i (numDead + 1)
          (by rw [hlen']; omega) (by rw [hlen']; omega)
          ?_ ?_
        · obtain ⟨ha, hb, hc, hd, he⟩ := hres
          have hperm := swap_set_perm default nodes i (nodes.length - numDead - 1) hilen hjlen
          refine ⟨by rw [ha, hlen'], by rw [hlen'] at hb; exact hb,
            hc.trans hperm, hd, ?_⟩
          intro idx hidx hlt
          exact he idx hidx (by rw [hlen']; exact hlt)
        · intro idx hidx
          rw [getD_set_ne _ _ _ _ _ (by omega), getD_set_ne _ _ _ _ _ (by omega)]
          exact h1 idx hidx
        · intro idx hidx hlt
          rw [hlen'] at hlt
          by_cases hj : idx = nodes.length - numDead - 1
          · subst hj
            rw [getD_set_self _ _ _ _ (by simp; omega)]
            exact hdead
          · have hgt : nodes.length - numDead ≤ idx := by
              rw [hlen'] at hidx; omega
            rw [getD_set_ne _ _ _ _ _ (fun h => hj h.symm),
              getD_set_ne _ _ _ _ _ (by omega)]
            exact h2 idx hgt hlt
      · rw [if_neg hdead]
        have hfalse : deadExpired g now (nodes.getD i default) = false := by
          simpa using hdead
        refine ih nodes (i + 1) numDead (by omega) hnd ?_ h2
        intro idx hidx
        by_cases hidx' : idx = i
        · subst hidx'; exact hfalse
        · exact h1 idx (by omega)
    · rw [if_neg hguard]
      have hge : nodes.length - numDead ≤ i := by omega
      refine ⟨rfl, by show nodes.length - numDead ≤ nodes.length; omega,
        List.Perm.refl _, ?_, ?_⟩
      · intro idx hidx
        have hidx' : idx < nodes.length - numDead := hidx
        exact h1 idx (by omega)
      · intro idx hidx hlt
        exact h2 idx hidx hlt

/-- The length table of a frame is two bytes per message. -/
lemma table_length (L : List (List Nat)) :
    ((L.map fun mm => u16beBytes (mm.length % 65536)).flatten).length = 2 * L.length := by
  induction L with
  | nil => simp
  | cons m ms ih =>
    rw [List.map_cons, List.flatten_cons, List.length_append, ih]
    simp only [u16beBytes, List.length_cons, List.length_nil, List.length_cons]
    omega

/-- Reading the length table back: provided every message fits in a
`uint16`, the decoder's indexed big-endian reads over the table (followed
by any suffix) recover exactly the message lengths. -/
lemma lengths_extract :
    ∀ (L : List (List Nat)) (suffix : List Nat), (∀ m ∈ L, m.length ≤ 65535) →
      (List.range L.length).map
          (fun i =>
            256 * (((L.map fun mm => u16beBytes (mm.length % 65536)).flatten ++ suffix).getD
              (2 * i) 0) +
            ((L.map fun mm => u16beBytes (mm.length % 65536)).flatten ++ suffix).getD
              (2 * i + 1) 0) =
        L.map List.length := by
  intro L
  induction L with
  | nil => intro suffix _; simp
  | cons m ms ih =>
    intro suffix h
    have hm : m.length ≤ 65535 := h m (by simp)
    have hms : ∀ x ∈ ms, x.length ≤ 65535 := fun x hx => h x (by simp [hx])
    simp only [List.map_cons, List.flatten_cons, List.length_cons,
      List.range_succ_eq_map, List.map_map, u16beBytes, List.cons_append,
      List.nil_append, List.append_assoc]
    congr 1
    · simp only [Nat.mul_zero, Nat.zero_add, List.getD_cons_zero, List.getD_cons_succ]
      omega
    · rw [← ih suffix hms]
      apply List.map_congr_left
      intro i _
      have e1 : 2 * Nat.succ i = 2 * i + 1 + 1 := by omega
      have e2 : 2 * Nat.succ i + 1 = 2 * i + 1 + 1 + 1 := by omega
      simp only [Function.comp, Function.comp_apply, e1, e2, List.getD_cons_succ,
        u16beBytes, List.cons_append, List.nil_append]

/-- Splitting a body that contains exactly the listed messages succeeds
with no truncation. -/
lemma splitLoop_exact (c : Nat) :
    ∀ (ms : List (List Nat)) (idx : Nat),
      splitLoop c (ms.map List.length) ms.flatten idx = (0, ms) := by
  intro ms
  induction ms with
  | nil => intro idx; rfl
  | cons m t ih =>
    intro idx
    simp only [List.map_cons, List.flatten_cons, splitLoop]
    rw [if_neg (by simp)]
    rw [List.drop_left, List.take_left, ih (idx + 1)]

/-- Splitting a body that contains exactly the first `keep` messages, when
the next expected length is positive, extracts `keep` and reports
`c - (idx + len(keep))` truncated messages. -/
lemma splitLoop_trunc (c : Nat) :
    ∀ (keep : List (List Nat)) (r : Nat) (rs : List Nat) (idx : Nat), 0 < r →
      splitLoop c (keep.map List.length ++ r :: rs) keep.flatten idx =
        (c - (idx + keep.length), keep) := by
  intro keep
  induction keep with
  | nil =>
    intro r rs idx hr
    simp only [List.map_nil, List.nil_append, List.flatten_nil, splitLoop]
    rw [if_pos (by simpa using hr)]
    simp
  | cons m t ih =>
    intro r rs idx hr
    simp only [List.map_cons, List.flatten_cons, List.cons_append, splitLoop,
      List.append_eq]
    rw [if_neg (by simp)]
    rw [List.drop_left, List.take_left, ih r rs (idx + 1) hr]
    have e : idx + 1 + t.length = idx + (t.length + 1) := by omega
    simp only [List.length_cons, e]

/-- The truncated frame laid out explicitly: removing the bytes of the
last `j` bodies from the tail of the frame leaves the header, the full
length table and the first `len - j` bodies. -/
lemma dropTailBodies_eq (L : List (List Nat)) (j : Nat) :
    dropTailBodies L j =
      compoundMsgTag :: L.length % 256 ::
        ((L.map fun mm => u16beBytes (mm.length % 65536)).flatten ++
          (L.take (L.length - j)).flatten) := by
  rw [dropTailBodies, makeCompound_unfold]
  have hflat : L.flatten = (L.take (L.length - j)).flatten ++ (L.drop (L.length - j)).flatten := by
    rw [← List.flatten_append, List.take_append_drop]
  have hsum : ((L.drop (L.length - j)).map List.length).sum = (L.drop (L.length - j)).flatten.length :=
    (List.length_flatten _).symm
  rw [hflat, hsum]
  have hA : compoundMsgTag :: L.length % 256 ::
        ((L.map fun mm => u16beBytes (mm.length % 65536)).flatten ++
          ((L.take (L.length - j)).flatten ++ (L.drop (L.length - j)).flatten)) =
      (compoundMsgTag :: L.length % 256 ::
        ((L.map fun mm => u16beBytes (mm.length % 65536)).flatten ++
          (L.take (L.length - j)).flatten)) ++ (L.drop (L.length - j)).flatten := by
    simp [List.append_assoc]
  rw [hA]
  have hlen : ((compoundMsgTag :: L.length % 256 ::
        ((L.map fun mm => u16beBytes (mm.length % 65536)).flatten ++
          (L.take (L.length - j)).flatten)) ++ (L.drop (L.length - j)).flatten).length -
        (L.drop (L.length - j)).flatten.length =
      (compoundMsgTag :: L.length % 256 ::
        ((L.map fun mm => u16beBytes (mm.length % 65536)).flatten ++
          (L.take (L.length - j)).flatten)).length := by
    have hsplit2 : (List.take (L.length - j) (List.map List.length L)).sum +
        (List.drop (L.length - j) (List.map List.length L)).sum =
          (List.map List.length L).sum := by
      rw [← List.sum_append, List.take_append_drop]
    simp
    omega
  rw [hlen, List.take_left]

/-! ### Claim theorems -/

/-- C1: the claim says that for every count value 0–255 an input whose
remaining bytes number fewer than `count*2` yields the "truncated length
table" error and no out-of-bounds read.  The code computes `count*2` in
`uint8` arithmetic, so for count 128 the bounds check compares against
`256 % 256 = 0` and passes, and the length-decoding loop then reads past
the end of the buffer: a Go panic, not the specified error. -/
theorem C1_count128_bounds_check_wraps :
    decodeCompoundMessage [128] = DecodeResult.panic ∧
      decodeCompoundMessage [128] ≠ DecodeResult.err "truncated len slice" := by
  constructor
  · rfl
  · decide

set_option maxRecDepth 100000 in
/-- C2: the claim says the pack/unpack round trip holds for every list of
up to 255 messages.  For 128 one-byte messages the `uint8` product
`numParts*2 = 256` wraps to 0, so the decoder fails to skip the length
table and reads the parts out of the table bytes themselves: it returns
128 alternating one-byte parts `[0],[1],…` instead of the packed
messages `[7],…`. -/
theorem C2_roundtrip_fails_at_count128 :
    decodeCompoundMessage ((makeCompoundMessage (List.replicate 128 [7])).drop 1) =
        DecodeResult.ok 0 ((List.replicate 64 [[0], [1]]).flatten) ∧
      (List.replicate 64 [[0], [1]]).flatten ≠ List.replicate 128 ([7] : List Nat) := by
  constructor
  · rfl
  · decide

/-- C3 counterexample: the claim says that removing the last `j` message
bodies from the tail of a packed frame makes `unpack` report
`truncatedCount = j`.  For `L = [[]]` and `j = 1` the last body is empty,
so removing it leaves the frame intact and `unpack` returns
`(0, [[]])`, not `(1, [])`. -/
theorem C3_empty_tail_body_not_detected :
    decodeCompoundMessage ((dropTailBodies [[]] 1).drop 1) = DecodeResult.ok 0 [[]] ∧
      decodeCompoundMessage ((dropTailBodies [[]] 1).drop 1) ≠ DecodeResult.ok 1 [] := by
  constructor
  · rfl
  · decide

/-- C3 amended: for every list `L` of at most 127 messages, each at most
65535 bytes, and every `j` with `1 ≤ j ≤ len(L)` such that the first of
the removed messages (the message at index `len(L) - j`) is non-empty,
unpacking the packed frame with the last `j` message bodies removed from
the tail returns `truncatedCount = j`, the first `len(L) - j` messages
unchanged and in order, and no error.  (The claim's full range
`len(L) ≤ 255` fails for counts 128–255 by the `uint8` overflow recorded
with C1/C2, and an empty first removed body makes the truncation
undetectable, hence the two added restrictions.) -/
theorem C3_truncated_frame_unpack (L : List (List Nat)) (j : Nat)
    (hL : L.length ≤ 127) (hsz : ∀ m ∈ L, m.length ≤ 65535)
    (hj1 : 1 ≤ j) (hj2 : j ≤ L.length)
    (hne : (L.drop (L.length - j)).headD [] ≠ []) :
    decodeCompoundMessage ((dropTailBodies L j).drop 1) =
      DecodeResult.ok j (L.take (L.length - j)) := by
  have e256 : L.length % 256 = L.length := Nat.mod_eq_of_lt (by omega)
  have hm2 : L.length * 2 % 256 = L.length * 2 := Nat.mod_eq_of_lt (by omega)
  rw [dropTailBodies_eq L j]
  show decodeCompoundMessage (L.length % 256 ::
      ((L.map fun mm => u16beBytes (mm.length % 65536)).flatten ++
        (L.take (L.length - j)).flatten)) =
    DecodeResult.ok j (L.take (L.length - j))
  have hlen_rest : ((L.map fun mm => u16beBytes (mm.length % 65536)).flatten ++
      (L.take (L.length - j)).flatten).length =
      2 * L.length + (L.take (L.length - j)).flatten.length := by
    rw [List.length_append, table_length]
  simp only [decodeCompoundMessage, e256, hm2]
  rw [if_neg (by rw [hlen_rest]; omega), if_neg (by rw [hlen_rest]; omega)]
  have hm3 : L.length * 2 =
      ((L.map fun mm => u16beBytes (mm.length % 65536)).flatten).length := by
    rw [table_length]; omega
  rw [hm3, List.drop_left, lengths_extract L ((L.take (L.length - j)).flatten) hsz]
  obtain ⟨t0, ts, hts⟩ : ∃ a t, L.drop (L.length - j) = a :: t := by
    apply List.exists_cons_of_ne_nil
    intro hnil
    have := congrArg List.length hnil
    simp [List.length_drop] at this
    omega
  have ht0 : 0 < t0.length := by
    rw [hts] at hne
    exact List.length_pos.mpr (by simpa using hne)
  have hmap : L.map List.length =
      (L.take (L.length - j)).map List.length ++ (t0.length :: ts.map List.length) := by
    conv_lhs => rw [← List.take_append_drop (L.length - j) L]
    rw [List.map_append, hts, List.map_cons]
  rw [hmap, splitLoop_trunc L.length (L.take (L.length - j)) t0.length
    (ts.map List.length) 0 ht0]
  have hkeep : L.length - (0 + (L.take (L.length - j)).length) = j := by
    rw [List.length_take_of_le (by omega)]
    omega
  rw [hkeep]

/-- Witness for C3's amended theorem: two one-byte messages with the last
body removed unpack to one message and truncation count 1. -/
theorem C3_truncated_frame_unpack_witness :
    decodeCompoundMessage ((dropTailBodies [[1], [2]] 1).drop 1) =
      DecodeResult.ok 1 [[1]] :=
  C3_truncated_frame_unpack [[1], [2]] 1 (by decide) (by decide) (by decide) (by decide)
    (by decide)

/-- C10: `makeCompoundMessage` is total and performs no validation: for
every input list, the frame is the tag byte, then `len(msgs) mod 256` as
the count byte, then one big-endian `uint16` entry `len(m) mod 65536` per
message, then the concatenated bodies — oversized inputs are wrapped
modulo `2^8`/`2^16`, never rejected. -/
theorem C10_pack_total_mod_wrapping (msgs : List (List Nat)) :
    makeCompoundMessage msgs =
      compoundMsgTag :: msgs.length % 256 ::
        ((msgs.map fun m => u16beBytes (m.length % 65536)).flatten ++ msgs.flatten) :=
  makeCompound_unfold msgs

/-- C7: for every type tag and every serializable value, decoding the body
of the envelope produced by `encode` (after the leading tag byte the
caller consumes) recovers the value, given the serialization library's
round-trip contract. -/
theorem C7_encode_decode_roundtrip {V : Type} (c : Codec V)
    (hc : ∀ v, c.deser (c.ser v) = some v) (t : Nat) (v : V) :
    decode c ((encode c t v).drop 1) = some v := by
  simp [encode, decode, hc]

/-- Witness for C7 at a concrete codec, tag and value. -/
theorem C7_encode_decode_roundtrip_witness :
    decode ⟨fun n => [n], fun l => l.head?⟩ ((encode ⟨fun n => [n], fun l => l.head?⟩ 5 42).drop 1) =
      some 42 :=
  C7_encode_decode_roundtrip ⟨fun n => [n], fun l => l.head?⟩ (fun _ => rfl) 5 42

/-- C8: for every payload, decompressing the body produced by
`compressPayload` (after the leading compressed-message tag byte)
succeeds and returns exactly the payload: the envelope decodes, the
algorithm identifier matches the known one, and the decompressor inverts
the compressor by the library contract. -/
theorem C8_compress_decompress_roundtrip (z : LZWImpl) (c : Codec compress)
    (hz : ∀ p, z.decomp (z.comp p) = some p)
    (hc : ∀ v, c.deser (c.ser v) = some v) (p : List Nat) :
    decompressPayload z c ((compressPayload z c p).drop 1) = some p := by
  simp [compressPayload, decompressPayload, encode, decode, hc, decompressBuffer, hz]

/-- Witness for C8 at a concrete compressor and codec. -/
theorem C8_compress_decompress_roundtrip_witness :
    decompressPayload ⟨id, some⟩ ⟨fun co => co.Algo :: co.Buf,
        fun l => match l with | [] => none | a :: r => some ⟨a, r⟩⟩
      ((compressPayload ⟨id, some⟩ ⟨fun co => co.Algo :: co.Buf,
        fun l => match l with | [] => none | a :: r => some ⟨a, r⟩⟩ [3, 1, 4]).drop 1) =
      some [3, 1, 4] :=
  C8_compress_decompress_roundtrip ⟨id, some⟩
    ⟨fun co => co.Algo :: co.Buf, fun l => match l with | [] => none | a :: r => some ⟨a, r⟩⟩
    (fun _ => rfl) (fun v => by cases v; rfl) [3, 1, 4]

/-- C4 counterexample: the claim quantifies over every `k` passed to
`newSuspicion`, but Go truncates it through `int32(k)`.  At
`k = 2^31 = 2147483648` the stored target wraps to `-2^31`, so a fresh
confirmation from a new peer — which the claim says must be accepted,
since `n = 0 < k` and the peer is not in the set — is rejected and `n`
stays 0. -/
theorem C4_int32_truncation_rejects_fresh_peer :
    (0 : Int) < 2147483648 ∧
      "b" ∉ (newSuspicion "a" 2147483648).confirmations ∧
      (newSuspicion "a" 2147483648).n = 0 ∧
      (suspicion.Confirm (newSuspicion "a" 2147483648) "b").1 = false ∧
      (suspicion.Confirm (newSuspicion "a" 2147483648) "b").2.n = 0 := by
  refine ⟨by decide, by decide, rfl, ?_, ?_⟩
  · rw [suspicion.Confirm, if_pos (by decide)]
  · rw [suspicion.Confirm, if_pos (by decide)]
    rfl

/-- C4 amended: for every suspicion timer created with a target `k` in the
`int32` range (so that Go's `int32(k)` conversion is the identity) and
every sequence of sequential `Confirm` calls: a call rejects (returning
`false` and leaving the state, in particular `n`, unchanged) whenever the
count has reached `k` or the peer is already in the confirmation set;
otherwise it records the peer, increments `n` by exactly one and returns
`true`.  The originating peer always rejects, and `n` never exceeds
`max k 0`. -/
theorem C4_confirm_behaviour (fromPeer : String) (k : Int) (peers : List String)
    (p : String) (s : suspicion)
    (hk1 : -2147483648 ≤ k) (hk2 : k < 2147483648)
    (hs : s = confirmSteps (newSuspicion fromPeer k) peers) :
    ((s.n ≥ s.k ∨ p ∈ s.confirmations) → s.Confirm p = (false, s)) ∧
      (s.n < s.k → p ∉ s.confirmations →
        (s.Confirm p).1 = true ∧ (s.Confirm p).2.n = s.n + 1 ∧
          (s.Confirm p).2.confirmations = p :: s.confirmations) ∧
      (s.Confirm fromPeer).1 = false ∧
      s.n ≤ max k 0 := by
  have hw : int32wrap k = k := int32wrap_eq_self k hk1 hk2
  have hinv : suspicionInv fromPeer (int32wrap k) s :=
    hs ▸ suspicionInv_steps fromPeer k peers
  rw [hw] at hinv
  obtain ⟨hk, hm, h0, hb⟩ := hinv
  refine ⟨?_, ?_, ?_, hb⟩
  · intro h
    rw [suspicion.Confirm]
    split_ifs with h1 h2
    · rfl
    · rfl
    · rcases h with h | h
      · exact absurd h h1
      · exact absurd h h2
  · intro h1 h2
    rw [suspicion.Confirm, if_neg (not_le.mpr h1), if_neg h2]
    refine ⟨rfl, ?_, rfl⟩
    show int32wrap (s.n + 1) = s.n + 1
    rw [hk] at h1
    exact int32wrap_eq_self _ (by omega) (by omega)
  · by_cases h1 : s.n ≥ s.k
    · rw [suspicion.Confirm, if_pos h1]
    · rw [suspicion.Confirm, if_neg h1, if_pos hm]

/-- Witness for C4's amended theorem at a concrete timer history. -/
theorem C4_confirm_behaviour_witness :
    (suspicion.Confirm (confirmSteps (newSuspicion "a" 2) ["b"]) "c").1 = true :=
  ((C4_confirm_behaviour "a" 2 ["b"] "c" _ (by decide) (by decide) rfl).2.1
    (by decide) (by decide)).1

/-- C6 counterexample: the claim says the kept nodes appear in the same
relative order as in the input.  With an evictable dead node in front of
two kept nodes, the swap-to-tail step moves the last kept node to the
front: the kept prefix comes out as the two alive nodes in reversed
order. -/
theorem C6_kept_order_not_preserved :
    (moveDeadNodes 10 100 [⟨.stateDead, 0⟩, ⟨.stateAlive, 0⟩, ⟨.stateAlive, 1⟩]).2 = 2 ∧
      ((moveDeadNodes 10 100
          [⟨.stateDead, 0⟩, ⟨.stateAlive, 0⟩, ⟨.stateAlive, 1⟩]).1).take 2 ≠
        [⟨.stateAlive, 0⟩, ⟨.stateAlive, 1⟩] := by
  constructor
  · rfl
  · decide

/-- C6 amended: `moveDeadNodes` returns an index `r` such that afterwards
every element at index `≥ r` is dead and past the grace window, every
element at index `< r` is not, and the resulting list is a permutation of
the input (same length); relative order of the kept nodes is not
preserved. -/
theorem C6_moveDeadNodes_partitions (g now : Int) (nodes : List nodeState) :
    (moveDeadNodes g now nodes).1.length = nodes.length ∧
      (moveDeadNodes g now nodes).2 ≤ nodes.length ∧
      List.Perm (moveDeadNodes g now nodes).1 nodes ∧
      (∀ idx, idx < (moveDeadNodes g now nodes).2 →
        deadExpired g now ((moveDeadNodes g now nodes).1.getD idx default) = false) ∧
      (∀ idx, (moveDeadNodes g now nodes).2 ≤ idx → idx < nodes.length →
        deadExpired g now ((moveDeadNodes g now nodes).1.getD idx default) = true) := by
  exact moveDeadLoop_inv g now nodes.length nodes 0 0 (by omega) (by omega)
    (fun idx hidx => absurd hidx (by omega))
    (fun idx hidx hlt => absurd hlt (by omega))

/-- Witness for C6's amended theorem at a concrete node list. -/
theorem C6_moveDeadNodes_partitions_witness :
    deadExpired 10 100
      ((moveDeadNodes 10 100
        [⟨.stateDead, 0⟩, ⟨.stateAlive, 0⟩, ⟨.stateAlive, 1⟩]).1.getD 0 default) = false :=
  (C6_moveDeadNodes_partitions 10 100
    [⟨.stateDead, 0⟩, ⟨.stateAlive, 0⟩, ⟨.stateAlive, 1⟩]).2.2.2.1 0 (by decide)

/-- C9 counterexample: the claim says `kRandomNodes` returns exactly
`min(k, len(nodes))` distinct members for every possible sequence of
random draws.  If every draw is 0, every probe lands on the first node
and the loop gives up after `3*len(nodes)` iterations having collected
only one element. -/
theorem C9_constant_draws_return_fewer :
    kRandomNodes 2 [10, 20] none (fun _ => 0) = [10] ∧
      (kRandomNodes 2 [10, 20] none (fun _ => 0)).length ≠ min 2 2 := by
  constructor
  · rfl
  · decide

/-- C9 amended: for every `k`, node list and draw sequence (no filter
restriction needed), `kRandomNodes` returns pairwise-distinct elements,
each a member of the node list, and at most `min k len(nodes)` of them;
exactness cannot be promised for every draw sequence. -/
theorem C9_kRandomNodes_distinct_members (k : Nat) (nodes : List Nat)
    (filterFn : Option (Nat → Bool)) (draws : Nat → Nat) :
    (kRandomNodes k nodes filterFn draws).Nodup ∧
      (∀ x ∈ kRandomNodes k nodes filterFn draws, x ∈ nodes) ∧
      (kRandomNodes k nodes filterFn draws).length ≤ min k nodes.length := by
  have h := kRandomLoop_inv k nodes filterFn draws (3 * nodes.length) (le_refl _) 0 []
    (by simp) (by simp) (by simp)
  obtain ⟨h1, h2, h3⟩ := h
  refine ⟨h1, h2, le_min h3 ?_⟩
  exact (List.subperm_of_subset h1 (fun x hx => h2 x hx)).length_le

/-- Witness for C9's amended theorem: with draws `0, 1, 2, …` against two
nodes, the first node is collected and the membership clause applies. -/
theorem C9_kRandomNodes_distinct_members_witness : (10 : Nat) ∈ [10, 20] :=
  (C9_kRandomNodes_distinct_members 2 [10, 20] none (fun i => i)).2.1 10 (by decide)

end Memberlist
